import Mathlib

/-!
Verification development for a terminal text-buffer core: a column-addressed
row buffer with wide-glyph-aware write semantics (`Replace` / `writeRow`) and
a Unicode-correct substring search (`SearchText` / `searchText`) that maps
logical text offsets back to column coordinates.

The repository's visible source is the unit test
`src/buffer/out/ut_textbuffer/UTextAdapterTests.cpp`; the buffer, writer and
searcher themselves are not part of the visible source, so every definition
below is modelled from the specification, with the test fixture pinning the
concrete behavior (spans, completion signal, surrogate-pair handling).
-/

/-- Modelled from the spec: the width-classification external capability
(East-Asian-width-style rules).  Returns `true` for codepoints rendered
across two display columns (wide glyphs), `false` otherwise. -/
def isWideGlyph (c : Nat) : Bool :=
  (0x1100 ≤ c && c ≤ 0x115F) || (0x2E80 ≤ c && c ≤ 0x303E) ||
  (0x3041 ≤ c && c ≤ 0x33FF) || (0x3400 ≤ c && c ≤ 0x4DBF) ||
  (0x4E00 ≤ c && c ≤ 0x9FFF) || (0xA000 ≤ c && c ≤ 0xA4CF) ||
  (0xAC00 ≤ c && c ≤ 0xD7A3) || (0xF900 ≤ c && c ≤ 0xFAFF) ||
  (0xFE30 ≤ c && c ≤ 0xFE4F) || (0xFF00 ≤ c && c ≤ 0xFF60) ||
  (0xFFE0 ≤ c && c ≤ 0xFFE6) || (0x20000 ≤ c && c ≤ 0x2FFFD) ||
  (0x30000 ≤ c && c ≤ 0x3FFFD)

/-- Modelled from the spec: display width (1 or 2 columns) of one
grapheme/codepoint unit. -/
def charWidth (c : Nat) : Nat :=
  if isWideGlyph c then 2 else 1

/-- Modelled from the spec: one display column's occupant -- a narrow glyph,
the head of a wide (two-column) glyph, or the trailer column of a wide glyph
(which carries no independent glyph).  Each cell also carries a display
attribute value. -/
inductive Cell where
  | narrow (g : Nat) (attr : Nat)
  | wideHead (g : Nat) (attr : Nat)
  | trailer (attr : Nat)
  deriving DecidableEq, Repr

/-- Codepoint of the blank glyph filling untouched cells. -/
def blankGlyph : Nat := 0x20

/-- Modelled from the spec: a row of `w` cells, all blank narrow glyphs. -/
def blankRow (w : Nat) : List Cell :=
  List.replicate w (Cell.narrow blankGlyph 0)

/-- Modelled from the spec: the buffer owns `height` rows of fixed
`width`; coordinates are (column, row) pairs. -/
structure Buffer where
  width : Nat
  height : Nat
  rows : List (List Cell)
  deriving DecidableEq, Repr

/-- Modelled from the spec: a freshly constructed buffer of blank rows. -/
def Buffer.init (w h : Nat) : Buffer :=
  Buffer.mk w h (List.replicate h (blankRow w))

/-- True iff the first code unit of a UTF-16 surrogate pair. -/
def isHighSurrogate (u : Nat) : Bool :=
  0xD800 ≤ u && u < 0xDC00

/-- True iff the second code unit of a UTF-16 surrogate pair. -/
def isLowSurrogate (u : Nat) : Bool :=
  0xDC00 ≤ u && u < 0xE000

/-- Codepoint denoted by a UTF-16 surrogate pair. -/
def combineSurrogates (hi lo : Nat) : Nat :=
  0x10000 + (hi - 0xD800) * 0x400 + (lo - 0xDC00)

/-- Modelled from the spec: segmentation of the storage encoding (UTF-16
code units) into grapheme/codepoint units.  A valid surrogate pair becomes
one unit (one codepoint outside the basic plane); an unpaired surrogate is
kept as a literal unit (no implicit repair). -/
def decodeUtf16 : List Nat → List Nat
  | [] => []
  | [u] => [u]
  | u :: v :: rest =>
    if isHighSurrogate u && isLowSurrogate v then
      combineSurrogates u v :: decodeUtf16 rest
    else
      u :: decodeUtf16 (v :: rest)

/-- UTF-16 code units representing one codepoint: a single code unit in the
basic plane, a surrogate pair outside it. -/
def utf16EncodeChar (c : Nat) : List Nat :=
  if c < 0x10000 then [c]
  else [0xD800 + (c - 0x10000) / 0x400, 0xDC00 + (c - 0x10000) % 0x400]

/-- UTF-16 code units representing a sequence of codepoint units. -/
def encodeUtf16 (cs : List Nat) : List Nat :=
  (cs.map utf16EncodeChar).flatten

/-- Replaces a trailing wide-head cell (whose trailer column is about to be
overwritten) by a blank narrow cell; leaves any other list unchanged. -/
def fixL (l : List Cell) : List Cell :=
  match l.getLast? with
  | some (Cell.wideHead _ a) => l.dropLast ++ [Cell.narrow blankGlyph a]
  | _ => l

/-- Replaces a leading trailer cell (whose wide-head column was just
overwritten) by a blank narrow cell; leaves any other list unchanged. -/
def fixR : List Cell → List Cell
  | Cell.trailer a :: t => Cell.narrow blankGlyph a :: t
  | l => l

/-- Modelled from the spec: write a contiguous run of cells into a row at a
given column, repairing the wide/trailer pairing at both seams (a wide glyph
half-overwritten on either side collapses to a blank narrow cell). -/
def setRun (row : List Cell) (j : Nat) (cells : List Cell) : List Cell :=
  fixL (row.take j) ++ cells ++ fixR (row.drop (j + cells.length))

/-- Cells storing one grapheme/codepoint unit: one narrow cell for a
width-1 unit, a wide head plus a trailer for a width-2 unit. -/
def glyphCells (c : Nat) (attr : Nat) : List Cell :=
  if charWidth c = 2 then [Cell.wideHead c attr, Cell.trailer attr]
  else [Cell.narrow c attr]

/-- Result of writing into one row: the updated row, the final cursor
column, and the units that were not consumed. -/
structure WriteRes where
  row : List Cell
  col : Nat
  rem : List Nat
  deriving DecidableEq, Repr

/-- Modelled from the spec (TextWriter / `Replace`, row core): walk the
input one grapheme/codepoint unit at a time; a unit that fits before the row
boundary is written (narrow cell, or wide head plus trailer) and the cursor
advances by its display width; a wide unit landing on the last column pads
that column with a blank narrow cell and is left unconsumed; a full row
stops the walk, the rest of the input left unconsumed. -/
def writeRow : List Cell → Nat → Nat → List Nat → WriteRes
  | row, col, _, [] => WriteRes.mk row col []
  | row, col, attr, u :: rest =>
    if col + charWidth u ≤ row.length then
      writeRow (setRun row col (glyphCells u attr)) (col + charWidth u) attr rest
    else if col < row.length then
      WriteRes.mk (setRun row col [Cell.narrow blankGlyph attr]) row.length (u :: rest)
    else
      WriteRes.mk row col (u :: rest)

/-- Modelled from the spec: the transient write state -- the text still to
be placed (UTF-16 code units of the storage encoding), the starting column,
and the column reached by the last write. -/
structure RowWriteState where
  text : List Nat
  columnBegin : Nat
  columnEnd : Nat
  deriving DecidableEq, Repr

/-- Modelled from the spec (TextBuffer::Replace): write the state's text
into row `i` starting at `columnBegin`; the consumed prefix is truncated
from the state's text, so an empty remainder signals full consumption. -/
def Buffer.replace (b : Buffer) (i : Nat) (attr : Nat) (st : RowWriteState) :
    Buffer × RowWriteState :=
  match b.rows[i]? with
  | none => (b, st)
  | some r =>
    let res := writeRow r st.columnBegin attr (decodeUtf16 st.text)
    (Buffer.mk b.width b.height (b.rows.set i res.row),
     RowWriteState.mk (encodeUtf16 res.rem) st.columnBegin res.col)

/-- Modelled from the spec: the glyph a cell contributes to the row's
logical text (`none` for a trailer, which carries no glyph). -/
def cellGlyph : Cell → Option Nat
  | Cell.narrow g _ => some g
  | Cell.wideHead g _ => some g
  | Cell.trailer _ => none

/-- Modelled from the spec: a row's logical text -- each cell's glyph
emitted once, trailer cells skipped. -/
def logicalText (row : List Cell) : List Nat :=
  row.filterMap cellGlyph

/-- One grapheme/codepoint unit of the buffer's logical text, annotated
with the (column, row) coordinate of its origin cell and the number of
display columns it occupies. -/
structure TextUnit where
  g : Nat
  x : Nat
  y : Nat
  w : Nat
  deriving DecidableEq, Repr

/-- Units of one row starting at column `j`: each non-trailer cell yields
one unit at its own column; trailer cells yield nothing. -/
def annotRow : List Cell → Nat → Nat → List TextUnit
  | [], _, _ => []
  | Cell.narrow g _ :: rest, j, y => TextUnit.mk g j y 1 :: annotRow rest (j + 1) y
  | Cell.wideHead g _ :: rest, j, y => TextUnit.mk g j y 2 :: annotRow rest (j + 1) y
  | Cell.trailer _ :: rest, j, y => annotRow rest (j + 1) y

/-- Units of a list of rows, rows concatenated in row order. -/
def rowsUnits : List (List Cell) → Nat → List TextUnit
  | [], _ => []
  | r :: rs, y => annotRow r 0 y ++ rowsUnits rs (y + 1)

/-- Modelled from the spec: the full buffer's logical text as annotated
units, rows concatenated in row order. -/
def bufUnits (b : Buffer) : List TextUnit :=
  rowsUnits b.rows 0

/-- The buffer's logical text (glyphs only). -/
def bufText (b : Buffer) : List Nat :=
  (bufUnits b).map TextUnit.g

/-- A (column, row) coordinate. -/
structure Point where
  x : Nat
  y : Nat
  deriving DecidableEq, Repr

/-- A search match: the origin coordinate of its first unit and the
coordinate of the last column its last unit occupies. -/
structure Span where
  start : Point
  stop : Point
  deriving DecidableEq, Repr

/-- True iff the query's codepoints match the leading units glyph for
glyph. -/
def unitsMatch : List Nat → List TextUnit → Bool
  | [], _ => true
  | _ :: _, [] => false
  | c :: q, u :: us => c == u.g && unitsMatch q us

/-- Modelled from the spec (search core): scan the unit sequence left to
right; at a match of `q.length` units emit the span from the first matched
unit's origin to the last matched unit's last occupied column, then resume
at the unit immediately following the match; otherwise advance one unit.
`fuel` bounds the recursion (instantiated with the unit count). -/
def searchAux (q : List Nat) : Nat → List TextUnit → List Span
  | 0, _ => []
  | _ + 1, [] => []
  | fuel + 1, u :: rest =>
    if unitsMatch q (u :: rest) then
      let l := (u :: rest).getD (q.length - 1) u
      Span.mk (Point.mk u.x u.y) (Point.mk (l.x + l.w - 1) l.y) ::
        searchAux q fuel (rest.drop (q.length - 1))
    else
      searchAux q fuel rest

/-- Modelled from the spec: the search option flags; only the
no-special-flags exact codepoint mode is pinned by the source. -/
inductive SearchFlag where
  | none
  deriving DecidableEq, Repr

/-- Modelled from the spec (TextBuffer::SearchText): find every
non-overlapping occurrence of the query (UTF-16 code units, decoded to
units like the stored text) in the buffer's logical text; return a found
flag and the list of match spans.  Absence is a normal result: `false` and
an empty list. -/
def searchText (b : Buffer) (query : List Nat) (flag : SearchFlag) :
    Bool × List Span :=
  match flag with
  | SearchFlag.none =>
    let q := decodeUtf16 query
    if q.isEmpty then (false, [])
    else
      let us := bufUnits b
      let ms := searchAux q us.length us
      (!ms.isEmpty, ms)

/-- Modelled from the spec: a search call that also takes the
caller-supplied output list from a previous call; its contents are replaced
wholesale by the current call's matches. -/
def searchTextInto (b : Buffer) (query : List Nat) (flag : SearchFlag)
    (_prevOut : List Span) : Bool × List Span :=
  searchText b query flag

/-- Modelled from the spec: a search call observed together with the buffer
it ran on; the searcher reads the buffer and never mutates it. -/
def searchTextOn (b : Buffer) (query : List Nat) (flag : SearchFlag) :
    (Bool × List Span) × Buffer :=
  (searchText b query flag, b)

/-- UTF-16 code units of the test fixture text
`abc 𝒶𝒷𝒸 abc ネコちゃん` (the script letters are surrogate pairs, the kana
are wide glyphs). -/
def fixtureText : List Nat :=
  [0x61, 0x62, 0x63, 0x20,
   0xD835, 0xDCB6, 0xD835, 0xDCB7, 0xD835, 0xDCB8, 0x20,
   0x61, 0x62, 0x63, 0x20,
   0x30CD, 0x30B3, 0x3061, 0x3083, 0x3093]

/-- The 24-column, 1-row fixture buffer after writing the fixture text. -/
def fixtureWrite : Buffer × RowWriteState :=
  Buffer.replace (Buffer.init 24 1) 0 0 (RowWriteState.mk fixtureText 0 0)

/-- The fixture buffer itself. -/
def fixtureBuffer : Buffer :=
  fixtureWrite.1

/-- The fixture buffer's single row. -/
def fixtureRow : List Cell :=
  fixtureBuffer.rows.headD []

/-- Total display width of a run of units. -/
def widthsSum (units : List Nat) : Nat :=
  (units.map charWidth).sum

/-- Scan validating the wide/trailer pairing of a row.  The flag records
whether the previous cell was a wide head still awaiting its trailer. -/
def wfAux : Bool → List Cell → Bool
  | false, [] => true
  | true, [] => false
  | false, Cell.narrow _ _ :: rest => wfAux false rest
  | false, Cell.wideHead _ _ :: rest => wfAux true rest
  | false, Cell.trailer _ :: _ => false
  | true, Cell.trailer _ :: rest => wfAux false rest
  | true, Cell.narrow _ _ :: _ => false
  | true, Cell.wideHead _ _ :: _ => false

/-- Modelled from the spec: a row is well formed when every wide head is
immediately followed by exactly one trailer and no trailer appears without
a preceding wide head. -/
def rowWf (r : List Cell) : Bool :=
  wfAux false r

/-- Buffer states reachable in this core: a freshly constructed buffer,
followed by any sequence of `replace` writes. -/
inductive Reachable : Buffer → Prop
  | init (w h : Nat) : Reachable (Buffer.init w h)
  | step (b : Buffer) (i attr : Nat) (st : RowWriteState) :
      Reachable b → Reachable (Buffer.replace b i attr st).1

/-- True iff the first list is an initial segment of the second. -/
def leadsWith : List Nat → List Nat → Bool
  | [], _ => true
  | _ :: _, [] => false
  | c :: q, d :: l => c == d && leadsWith q l

/-- True iff the first list occurs as a contiguous segment of the
second. -/
def occursIn (q : List Nat) : List Nat → Bool
  | [] => q.isEmpty
  | c :: rest => leadsWith q (c :: rest) || occursIn q rest

/-- Reading order on coordinates (row-major), non-strict. -/
def ptLe (p r : Point) : Prop :=
  p.y < r.y ∨ (p.y = r.y ∧ p.x ≤ r.x)

/-- Reading order on coordinates (row-major), strict. -/
def ptLt (p r : Point) : Prop :=
  p.y < r.y ∨ (p.y = r.y ∧ p.x < r.x)

instance (p r : Point) : Decidable (ptLe p r) := by
  unfold ptLe
  exact inferInstance

instance (p r : Point) : Decidable (ptLt p r) := by
  unfold ptLt
  exact inferInstance

/-- The coordinates a span covers, in reading order: for a single-row span
these are exactly the columns from `start.x` to `stop.x` on that row. -/
def spanCovers (sp : Span) (p : Point) : Prop :=
  ptLe sp.start p ∧ ptLe p sp.stop

instance (sp : Span) (p : Point) : Decidable (spanCovers sp p) := by
  unfold spanCovers
  exact inferInstance

/-- One span ends strictly before another begins (reading order). -/
def spanBefore (a b : Span) : Prop :=
  ptLt a.stop b.start

/-- Ordering between consecutive units of the logical text: the later unit
lies on a later row, or on the same row at a column past every column the
earlier unit occupies. -/
def uStep (u v : TextUnit) : Prop :=
  u.y < v.y ∨ (u.y = v.y ∧ u.x + u.w ≤ v.x)

/-- All consecutive pairs of the unit list are ordered by `uStep`. -/
def chainU : List TextUnit → Prop
  | [] => True
  | [_] => True
  | u :: v :: rest => uStep u v ∧ chainU (v :: rest)

/-- A cell is a narrow glyph cell. -/
def cellNarrow (c : Cell) : Prop :=
  ∃ g a, c = Cell.narrow g a

/-! ## Basic facts about the encoding and the width classes -/

theorem charWidth_pos (c : Nat) : 1 ≤ charWidth c := by
  unfold charWidth
  split <;> omega

theorem charWidth_one_or_two (c : Nat) : charWidth c = 1 ∨ charWidth c = 2 := by
  unfold charWidth
  split <;> omega

theorem glyphCells_length (c a : Nat) : (glyphCells c a).length = charWidth c := by
  unfold glyphCells
  rcases charWidth_one_or_two c with h | h <;> simp [h]

/-! ## Claim C1: the literal search scenario of the test fixture -/

/-- C1: for the 24-column, 1-row buffer holding `abc 𝒶𝒷𝒸 abc ネコちゃん`,
searching with no special flags finds `abc` exactly at column spans (0,2)
and (8,10) of row 0, `𝒷` exactly at (5,5), and `ネコ` exactly at (12,15). -/
theorem unicode_fixture_search :
    searchText fixtureBuffer [0x61, 0x62, 0x63] SearchFlag.none =
      (true, [Span.mk (Point.mk 0 0) (Point.mk 2 0),
              Span.mk (Point.mk 8 0) (Point.mk 10 0)]) ∧
    searchText fixtureBuffer [0xD835, 0xDCB7] SearchFlag.none =
      (true, [Span.mk (Point.mk 5 0) (Point.mk 5 0)]) ∧
    searchText fixtureBuffer [0x30CD, 0x30B3] SearchFlag.none =
      (true, [Span.mk (Point.mk 12 0) (Point.mk 15 0)]) := by
  decide

/-! ## Claim C2: the span convention -/

/-- C2 (counterexample): the claim that a match of `k` units starting at
column `x` is reported with `stop.x = x + k` (half-open span) fails on the
fixture: the 3-unit match `abc` at columns 0..2 is reported with
`stop.x = 2`, not `0 + 3`. -/
theorem span_halfopen_refuted :
    (decodeUtf16 [0x61, 0x62, 0x63]).length = 3 ∧
    ((searchText fixtureBuffer [0x61, 0x62, 0x63] SearchFlag.none).2.getD 0
        (Span.mk (Point.mk 0 0) (Point.mk 0 0))).start.x = 0 ∧
    ((searchText fixtureBuffer [0x61, 0x62, 0x63] SearchFlag.none).2.getD 0
        (Span.mk (Point.mk 0 0) (Point.mk 0 0))).stop.x ≠ 0 + 3 := by
  decide

/-! ## Claim C4: surrogate pairs are one unit -/

/-- C4: a codepoint outside the basic plane is stored as two UTF-16 code
units (a surrogate pair), yet the writer's unit segmentation turns the pair
into a single unit, and writing that unit places one glyph and advances the
cursor by its display width exactly once. -/
theorem surrogate_pair_single_unit (c : Nat) (rest : List Nat)
    (h1 : 0x10000 ≤ c) (h2 : c ≤ 0x10FFFF) :
    (utf16EncodeChar c).length = 2 ∧
    decodeUtf16 (utf16EncodeChar c ++ rest) = c :: decodeUtf16 rest ∧
    (∀ row col attr us, col + charWidth c ≤ row.length →
      writeRow row col attr (c :: us) =
        writeRow (setRun row col (glyphCells c attr)) (col + charWidth c) attr us) := by
  have hdiv : (c - 0x10000) / 0x400 < 0x400 := by
    apply Nat.div_lt_of_lt_mul
    omega
  have hmod : (c - 0x10000) % 0x400 < 0x400 := Nat.mod_lt _ (by omega)
  have henc : utf16EncodeChar c =
      [0xD800 + (c - 0x10000) / 0x400, 0xDC00 + (c - 0x10000) % 0x400] := by
    unfold utf16EncodeChar
    rw [if_neg]
    omega
  refine ⟨by rw [henc]; rfl, ?_, ?_⟩
  · rw [henc]
    show decodeUtf16 (_ :: _ :: rest) = _
    rw [decodeUtf16]
    rw [if_pos]
    · have hc : combineSurrogates (0xD800 + (c - 0x10000) / 0x400)
          (0xDC00 + (c - 0x10000) % 0x400) = c := by
        unfold combineSurrogates
        have := Nat.div_add_mod (c - 0x10000) 0x400
        omega
      rw [hc]
    · unfold isHighSurrogate isLowSurrogate
      simp only [Bool.and_eq_true, decide_eq_true_eq]
      omega
  · intro row col attr us hfit
    rw [writeRow]
    rw [if_pos hfit]

/-! ## Claim C9: searching never mutates the buffer, so search is idempotent -/

/-- C9: a search call leaves the buffer unchanged, so running the same
search again on the resulting buffer returns the identical result. -/
theorem search_idempotent_pure (b : Buffer) (query : List Nat) (flag : SearchFlag) :
    (searchTextOn b query flag).2 = b ∧
    (searchTextOn (searchTextOn b query flag).2 query flag).1 =
      (searchTextOn b query flag).1 ∧
    (searchTextOn (searchTextOn b query flag).2 query flag).2 = b :=
  ⟨rfl, rfl, rfl⟩

/-! ## Claim C10: the output list is replaced wholesale -/

/-- C10: the result of a search call does not depend on what the
caller-supplied output list held before the call -- the list is replaced by
exactly this call's matches. -/
theorem search_output_replaced (b : Buffer) (query : List Nat) (flag : SearchFlag)
    (prev1 prev2 : List Span) :
    searchTextInto b query flag prev1 = searchText b query flag ∧
    searchTextInto b query flag prev1 = searchTextInto b query flag prev2 :=
  ⟨rfl, rfl⟩

/-- C4 (witness): the surrogate pair for `𝒷` (U+1D4B7) decodes to the
single unit U+1D4B7 in front of any remaining text. -/
theorem surrogate_pair_single_unit_witness :
    decodeUtf16 (utf16EncodeChar 0x1D4B7 ++ [0x61]) = 0x1D4B7 :: decodeUtf16 [0x61] :=
  (surrogate_pair_single_unit 0x1D4B7 [0x61] (by decide) (by decide)).2.1

/-! ## Length preservation of row writes -/

theorem fixL_length (l : List Cell) : (fixL l).length = l.length := by
  cases h : l.getLast? with
  | none => simp [fixL, h]
  | some c =>
    cases c with
    | narrow g a => simp [fixL, h]
    | trailer a => simp [fixL, h]
    | wideHead g a =>
      have hl : l ≠ [] := by
        intro he
        rw [he] at h
        simp at h
      have hpos : 0 < l.length := List.length_pos.mpr hl
      simp [fixL, h, List.length_dropLast]
      omega

theorem fixR_length (l : List Cell) : (fixR l).length = l.length := by
  cases l with
  | nil => rfl
  | cons c t => cases c <;> rfl

theorem setRun_length (row : List Cell) (j : Nat) (cells : List Cell)
    (h : j + cells.length ≤ row.length) :
    (setRun row j cells).length = row.length := by
  simp [setRun, fixL_length, fixR_length]
  omega

theorem widthsSum_cons (u : Nat) (rest : List Nat) :
    widthsSum (u :: rest) = charWidth u + widthsSum rest := by
  simp [widthsSum]

theorem writeRow_fits : ∀ (units : List Nat) (row : List Cell) (col attr : Nat),
    col + widthsSum units ≤ row.length → (writeRow row col attr units).rem = [] := by
  intro units
  induction units with
  | nil =>
    intro row col attr _
    rfl
  | cons u rest ih =>
    intro row col attr h
    rw [widthsSum_cons] at h
    have hfit : col + charWidth u ≤ row.length := by
      have := charWidth_pos u
      omega
    rw [writeRow, if_pos hfit]
    apply ih
    have hlen : (setRun row col (glyphCells u attr)).length = row.length :=
      setRun_length _ _ _ (by rw [glyphCells_length]; omega)
    rw [hlen]
    omega

/-! ## Claim C3: full consumption leaves the write state empty -/

/-- C3: when the text run fits entirely within the remaining row width,
`replace` consumes it all and leaves the write state's text empty -- the
completion signal. -/
theorem replace_fit_leaves_empty (b : Buffer) (i attr : Nat) (st : RowWriteState)
    (r : List Cell) (hr : b.rows[i]? = some r)
    (hfit : st.columnBegin + widthsSum (decodeUtf16 st.text) ≤ r.length) :
    (Buffer.replace b i attr st).2.text = [] := by
  unfold Buffer.replace
  rw [hr]
  simp only []
  have hrem := writeRow_fits (decodeUtf16 st.text) r st.columnBegin attr hfit
  simp [hrem, encodeUtf16]

/-- C3 (witness): the fixture write (22 columns of text into a 24-column
row) leaves the write state's text empty. -/
theorem replace_fit_leaves_empty_witness :
    (Buffer.replace (Buffer.init 24 1) 0 0 (RowWriteState.mk fixtureText 0 0)).2.text = [] :=
  replace_fit_leaves_empty (Buffer.init 24 1) 0 0 (RowWriteState.mk fixtureText 0 0)
    (blankRow 24) (by decide) (by decide)

/-! ## Claim C7: an absent query yields false and an empty list -/

theorem unitsMatch_eq_leadsWith : ∀ (q : List Nat) (us : List TextUnit),
    unitsMatch q us = leadsWith q (us.map TextUnit.g) := by
  intro q
  induction q with
  | nil =>
    intro us
    cases us <;> rfl
  | cons c q ih =>
    intro us
    cases us with
    | nil => rfl
    | cons u t => simp [unitsMatch, leadsWith, ih]

theorem searchAux_nil_of_absent : ∀ (q : List Nat) (fuel : Nat) (us : List TextUnit),
    occursIn q (us.map TextUnit.g) = false → searchAux q fuel us = [] := by
  intro q fuel
  induction fuel with
  | zero =>
    intro us _
    rfl
  | succ fuel ih =>
    intro us h
    cases us with
    | nil => rfl
    | cons u t =>
      rw [List.map_cons, occursIn, Bool.or_eq_false_iff] at h
      obtain ⟨hl, ho⟩ := h
      have hm : unitsMatch q (u :: t) = false := by
        rw [unitsMatch_eq_leadsWith, List.map_cons]
        exact hl
      rw [searchAux, if_neg]
      · exact ih t ho
      · simp [hm]

/-- C7: a query that does not occur in the buffer's logical text yields
`found = false` and an empty match list -- absence is a normal result. -/
theorem search_absent_false_empty (b : Buffer) (query : List Nat)
    (h : occursIn (decodeUtf16 query) (bufText b) = false) :
    searchText b query SearchFlag.none = (false, []) := by
  unfold searchText
  by_cases hq : (decodeUtf16 query).isEmpty
  · simp [hq]
  · have hnil := searchAux_nil_of_absent (decodeUtf16 query) (bufUnits b).length (bufUnits b) h
    simp [hq, hnil]

/-- C7 (witness): searching the fixture for `xyz` returns false and no
matches. -/
theorem search_absent_false_empty_witness :
    searchText fixtureBuffer [0x78, 0x79, 0x7A] SearchFlag.none = (false, []) :=
  search_absent_false_empty fixtureBuffer [0x78, 0x79, 0x7A] (by decide)

/-! ## Writes into all-narrow rows -/

theorem getLast_some_mem : ∀ (l : List Cell) (c : Cell), l.getLast? = some c → c ∈ l := by
  intro l
  induction l with
  | nil =>
    intro c h
    simp at h
  | cons d t ih =>
    intro c h
    cases t with
    | nil =>
      simp at h
      simp [h]
    | cons e t2 =>
      rw [List.getLast?_cons_cons] at h
      exact List.mem_cons_of_mem d (ih c h)

theorem fixL_of_narrow (l : List Cell) (hn : ∀ c ∈ l, cellNarrow c) : fixL l = l := by
  cases h : l.getLast? with
  | none => simp [fixL, h]
  | some c =>
    obtain ⟨g, a, hc⟩ := hn c (getLast_some_mem l c h)
    subst hc
    simp [fixL, h]

theorem fixR_of_narrow (l : List Cell) (hn : ∀ c ∈ l, cellNarrow c) : fixR l = l := by
  cases l with
  | nil => rfl
  | cons c t =>
    obtain ⟨g, a, hc⟩ := hn c (List.mem_cons_self c t)
    subst hc
    rfl

theorem setRun_narrow (row : List Cell) (j g a : Nat) (hn : ∀ c ∈ row, cellNarrow c) :
    setRun row j [Cell.narrow g a] = row.take j ++ Cell.narrow g a :: row.drop (j + 1) := by
  unfold setRun
  simp only [List.length_cons, List.length_nil]
  rw [fixL_of_narrow _ (fun c hc => hn c (List.take_subset j row hc)),
      fixR_of_narrow _ (fun c hc => hn c (List.drop_subset (j + 1) row hc))]
  simp

theorem writeRow_narrow_cells : ∀ (units : List Nat) (row : List Cell) (col attr : Nat),
    (∀ u ∈ units, charWidth u = 1) → (∀ c ∈ row, cellNarrow c) →
    (writeRow row col attr units).row =
      row.take col ++ (units.take (row.length - col)).map (fun u => Cell.narrow u attr) ++
        row.drop (col + units.length) := by
  intro units
  induction units with
  | nil =>
    intro row col attr _ _
    simp [writeRow, List.take_append_drop]
  | cons u rest ih =>
    intro row col attr hu hn
    have hw : charWidth u = 1 := hu u (List.mem_cons_self u rest)
    have hrest : ∀ v ∈ rest, charWidth v = 1 := fun v hv => hu v (List.mem_cons_of_mem u hv)
    by_cases hfit : col + charWidth u ≤ row.length
    · have hcol : col < row.length := by omega
      have hcells : glyphCells u attr = [Cell.narrow u attr] := by
        simp [glyphCells, hw]
      rw [writeRow, if_pos hfit, hcells, hw, setRun_narrow row col u attr hn]
      have hn2 : ∀ c ∈ row.take col ++ Cell.narrow u attr :: row.drop (col + 1), cellNarrow c := by
        intro c hc
        rw [List.mem_append, List.mem_cons] at hc
        rcases hc with h1 | h2 | h3
        · exact hn c (List.take_subset col row h1)
        · exact ⟨u, attr, h2⟩
        · exact hn c (List.drop_subset (col + 1) row h3)
      rw [ih _ (col + 1) attr hrest hn2]
      have hlentake : (row.take col).length = col := by
        rw [List.length_take]
        omega
      have hlen : (row.take col ++ Cell.narrow u attr :: row.drop (col + 1)).length = row.length := by
        simp [List.length_drop]
        omega
      have htake : (row.take col ++ Cell.narrow u attr :: row.drop (col + 1)).take (col + 1) =
          row.take col ++ [Cell.narrow u attr] := by
        rw [List.take_append_eq_append_take, List.take_of_length_le (by omega), hlentake]
        have : col + 1 - col = 1 := by omega
        rw [this]
        rfl
      have hdrop : (row.take col ++ Cell.narrow u attr :: row.drop (col + 1)).drop
          (col + 1 + rest.length) = row.drop (col + 1 + rest.length) := by
        rw [List.drop_append_eq_append_drop, List.drop_eq_nil_of_le (by omega), hlentake]
        have h1 : col + 1 + rest.length - col = 1 + rest.length := by omega
        rw [h1]
        show (Cell.narrow u attr :: row.drop (col + 1)).drop (1 + rest.length) =
          row.drop (col + 1 + rest.length)
        have h2 : 1 + rest.length = rest.length + 1 := by omega
        rw [h2, List.drop_succ_cons, List.drop_drop]
      rw [htake, hlen, hdrop]
      have hsplit : row.length - col = (row.length - (col + 1)) + 1 := by omega
      rw [hsplit, List.take_succ_cons, List.map_cons]
      have harr : col + (u :: rest).length = col + 1 + rest.length := by
        simp only [List.length_cons]
        omega
      rw [harr]
      simp
    · have hcol : ¬ col < row.length := by
        have := charWidth_pos u
        omega
      rw [writeRow, if_neg hfit, if_neg hcol]
      have h1 : row.take col = row := List.take_of_length_le (by omega)
      have h2 : row.length - col = 0 := by omega
      have h3 : row.drop (col + (u :: rest).length) = [] :=
        List.drop_eq_nil_of_le (by simp; omega)
      rw [h1, h2, h3]
      simp

/-! ## Claim C8: the round-trip property -/

/-- C8 (counterexample): writing the narrow-only run `a` (one codepoint,
fully consumed, no truncation) into a blank 2-column row and reading the
row's logical text does not reproduce the run exactly: the untouched blank
column contributes a trailing space. -/
theorem roundtrip_exact_refuted :
    (∀ u ∈ decodeUtf16 [0x61], charWidth u = 1) ∧
    (Buffer.replace (Buffer.init 2 1) 0 0 (RowWriteState.mk [0x61] 0 0)).2.text = [] ∧
    logicalText
        ((Buffer.replace (Buffer.init 2 1) 0 0 (RowWriteState.mk [0x61] 0 0)).1.rows.headD []) ≠
      decodeUtf16 [0x61] := by
  decide

/-- C8 (amended): for a row produced entirely by the writer from a
narrow-only run, the row's logical text is exactly the written run
(truncated at the row width on overflow) followed by the untouched blank
padding of the remaining columns. -/
theorem roundtrip_modulo_padding (w : Nat) (units : List Nat) (attr : Nat)
    (h : ∀ u ∈ units, charWidth u = 1) :
    logicalText ((writeRow (blankRow w) 0 attr units).row) =
      units.take w ++ List.replicate (w - units.length) blankGlyph := by
  have hn : ∀ c ∈ blankRow w, cellNarrow c := by
    intro c hc
    exact ⟨blankGlyph, 0, List.eq_of_mem_replicate hc⟩
  rw [writeRow_narrow_cells units (blankRow w) 0 attr h hn]
  have hlen : (blankRow w).length = w := by
    simp [blankRow]
  rw [hlen]
  have hdrop : (blankRow w).drop (0 + units.length) =
      List.replicate (w - units.length) (Cell.narrow blankGlyph 0) := by
    simp [blankRow, List.drop_replicate]
  rw [hdrop]
  simp [logicalText, List.filterMap_append, List.filterMap_map, List.filterMap_replicate,
    cellGlyph, Function.comp]
  rw [← List.map_take, List.filterMap_map]
  have hcomp : cellGlyph ∘ (fun u => Cell.narrow u attr) = some := by
    funext u
    rfl
  rw [hcomp, List.filterMap_some]

/-- C8 (witness of the amended claim): writing `a` into a blank 2-column
row reads back as `a` followed by one blank. -/
theorem roundtrip_modulo_padding_witness :
    logicalText ((writeRow (blankRow 2) 0 0 [0x61]).row) =
      [0x61].take 2 ++ List.replicate (2 - [0x61].length) blankGlyph :=
  roundtrip_modulo_padding 2 [0x61] 0 (by decide)

/-! ## Preservation of the wide/trailer pairing -/

theorem wfAux_append : ∀ (a : List Cell) (flag : Bool) (b : List Cell),
    wfAux flag a = true → wfAux false b = true → wfAux flag (a ++ b) = true := by
  intro a
  induction a with
  | nil =>
    intro flag b ha hb
    cases flag with
    | false => simpa using hb
    | true => simp [wfAux] at ha
  | cons c t ih =>
    intro flag b ha hb
    cases flag with
    | false =>
      cases c with
      | narrow g at2 =>
        rw [wfAux] at ha
        rw [List.cons_append, wfAux]
        exact ih false b ha hb
      | wideHead g at2 =>
        rw [wfAux] at ha
        rw [List.cons_append, wfAux]
        exact ih true b ha hb
      | trailer at2 =>
        rw [wfAux] at ha
        exact absurd ha (by simp)
    | true =>
      cases c with
      | narrow g at2 =>
        rw [wfAux] at ha
        exact absurd ha (by simp)
      | wideHead g at2 =>
        rw [wfAux] at ha
        exact absurd ha (by simp)
      | trailer at2 =>
        rw [wfAux] at ha
        rw [List.cons_append, wfAux]
        exact ih false b ha hb

theorem wfAux_true_shape (l : List Cell) (h : wfAux true l = true) :
    ∃ a t, l = Cell.trailer a :: t ∧ wfAux false t = true := by
  cases l with
  | nil => simp [wfAux] at h
  | cons c t =>
    cases c with
    | narrow g a => simp [wfAux] at h
    | wideHead g a => simp [wfAux] at h
    | trailer a =>
      rw [wfAux] at h
      exact ⟨a, t, rfl, h⟩

theorem wfAux_take : ∀ (r : List Cell) (flag : Bool) (j : Nat), wfAux flag r = true →
    wfAux flag (r.take j) = true ∨
    (∃ t g a, r.take j = t ++ [Cell.wideHead g a] ∧ wfAux flag t = true) ∨
    (flag = true ∧ j = 0) := by
  intro r
  induction r with
  | nil =>
    intro flag j h
    left
    rw [List.take_nil]
    exact h
  | cons c t ih =>
    intro flag j h
    cases j with
    | zero =>
      cases flag with
      | false => left; rfl
      | true => right; right; exact ⟨rfl, rfl⟩
    | succ j =>
      cases flag with
      | false =>
        cases c with
        | narrow g a =>
          rw [wfAux] at h
          rcases ih false j h with h1 | ⟨t2, g2, a2, he, ht2⟩ | ⟨hf, _⟩
          · left
            rw [List.take_succ_cons, wfAux]
            exact h1
          · right; left
            refine ⟨Cell.narrow g a :: t2, g2, a2, ?_, ?_⟩
            · rw [List.take_succ_cons, he]
              rfl
            · rw [wfAux]
              exact ht2
          · exact absurd hf (by simp)
        | wideHead g a =>
          rw [wfAux] at h
          rcases ih true j h with h1 | ⟨t2, g2, a2, he, ht2⟩ | ⟨_, hj⟩
          · left
            rw [List.take_succ_cons, wfAux]
            exact h1
          · right; left
            refine ⟨Cell.wideHead g a :: t2, g2, a2, ?_, ?_⟩
            · rw [List.take_succ_cons, he]
              rfl
            · rw [wfAux]
              exact ht2
          · subst hj
            right; left
            exact ⟨[], g, a, by simp, rfl⟩
        | trailer a =>
          rw [wfAux] at h
          exact absurd h (by simp)
      | true =>
        cases c with
        | narrow g a =>
          rw [wfAux] at h
          exact absurd h (by simp)
        | wideHead g a =>
          rw [wfAux] at h
          exact absurd h (by simp)
        | trailer a =>
          rw [wfAux] at h
          rcases ih false j h with h1 | ⟨t2, g2, a2, he, ht2⟩ | ⟨hf, _⟩
          · left
            rw [List.take_succ_cons, wfAux]
            exact h1
          · right; left
            refine ⟨Cell.trailer a :: t2, g2, a2, ?_, ?_⟩
            · rw [List.take_succ_cons, he]
              rfl
            · rw [wfAux]
              exact ht2
          · exact absurd hf (by simp)

theorem wfAux_drop : ∀ (r : List Cell) (flag : Bool) (k : Nat), wfAux flag r = true →
    wfAux false (r.drop k) = true ∨
    (∃ a t, r.drop k = Cell.trailer a :: t ∧ wfAux false t = true) := by
  intro r
  induction r with
  | nil =>
    intro flag k h
    cases flag with
    | false =>
      left
      rw [List.drop_nil]
      exact h
    | true => simp [wfAux] at h
  | cons c t ih =>
    intro flag k h
    cases k with
    | zero =>
      cases flag with
      | false => left; exact h
      | true =>
        obtain ⟨a, t2, he, ht⟩ := wfAux_true_shape _ h
        right
        exact ⟨a, t2, by rw [List.drop_zero, he], ht⟩
    | succ k =>
      rw [List.drop_succ_cons]
      cases flag with
      | false =>
        cases c with
        | narrow g a =>
          rw [wfAux] at h
          exact ih false k h
        | wideHead g a =>
          rw [wfAux] at h
          exact ih true k h
        | trailer a =>
          rw [wfAux] at h
          exact absurd h (by simp)
      | true =>
        cases c with
        | narrow g a =>
          rw [wfAux] at h
          exact absurd h (by simp)
        | wideHead g a =>
          rw [wfAux] at h
          exact absurd h (by simp)
        | trailer a =>
          rw [wfAux] at h
          exact ih false k h

theorem wfAux_getLast_not_wide : ∀ (l : List Cell) (flag : Bool), wfAux flag l = true →
    ∀ g a, l.getLast? ≠ some (Cell.wideHead g a) := by
  intro l
  induction l with
  | nil =>
    intro flag _ g a
    simp
  | cons c t ih =>
    intro flag h g a heq
    cases t with
    | nil =>
      rw [List.getLast?_singleton] at heq
      have hc : c = Cell.wideHead g a := by
        injection heq
      subst hc
      cases flag with
      | false =>
        rw [wfAux] at h
        simp [wfAux] at h
      | true =>
        rw [wfAux] at h
        simp at h
    | cons d t2 =>
      rw [List.getLast?_cons_cons] at heq
      cases flag with
      | false =>
        cases c with
        | narrow g2 a2 =>
          rw [wfAux] at h
          exact ih false h g a heq
        | wideHead g2 a2 =>
          rw [wfAux] at h
          exact ih true h g a heq
        | trailer a2 =>
          rw [wfAux] at h
          simp at h
      | true =>
        cases c with
        | narrow g2 a2 =>
          rw [wfAux] at h
          simp at h
        | wideHead g2 a2 =>
          rw [wfAux] at h
          simp at h
        | trailer a2 =>
          rw [wfAux] at h
          exact ih false h g a heq

theorem wf_fixL (l : List Cell)
    (h : wfAux false l = true ∨ ∃ t g a, l = t ++ [Cell.wideHead g a] ∧ wfAux false t = true) :
    wfAux false (fixL l) = true := by
  rcases h with h | ⟨t, g, a, he, ht⟩
  · have hnw := wfAux_getLast_not_wide l false h
    have hfix : fixL l = l := by
      unfold fixL
      cases hl : l.getLast? with
      | none => rfl
      | some c =>
        cases c with
        | narrow g2 a2 => rfl
        | wideHead g2 a2 => exact absurd hl (hnw g2 a2)
        | trailer a2 => rfl
    rw [hfix]
    exact h
  · subst he
    have hfix : fixL (t ++ [Cell.wideHead g a]) = t ++ [Cell.narrow blankGlyph a] := by
      unfold fixL
      rw [List.getLast?_concat]
      simp [List.dropLast_concat]
    rw [hfix]
    exact wfAux_append t false _ ht rfl

theorem wf_fixR (l : List Cell)
    (h : wfAux false l = true ∨ ∃ a t, l = Cell.trailer a :: t ∧ wfAux false t = true) :
    wfAux false (fixR l) = true := by
  rcases h with h | ⟨a, t, he, ht⟩
  · cases l with
    | nil => exact h
    | cons c t =>
      cases c with
      | narrow g2 a2 => exact h
      | wideHead g2 a2 => exact h
      | trailer a2 =>
        rw [wfAux] at h
        simp at h
  · subst he
    show wfAux false (Cell.narrow blankGlyph a :: t) = true
    rw [wfAux]
    exact ht

theorem wf_setRun (row : List Cell) (j : Nat) (cells : List Cell)
    (hrow : wfAux false row = true) (hcells : wfAux false cells = true) :
    wfAux false (setRun row j cells) = true := by
  unfold setRun
  rw [List.append_assoc]
  apply wfAux_append _ false _ _ (wfAux_append _ false _ hcells _)
  · apply wf_fixL
    rcases wfAux_take row false j hrow with h1 | h2 | ⟨hf, _⟩
    · exact Or.inl h1
    · exact Or.inr h2
    · exact absurd hf (by simp)
  · exact wf_fixR _ (wfAux_drop row false (j + cells.length) hrow)

theorem glyphCells_wf (c attr : Nat) : wfAux false (glyphCells c attr) = true := by
  unfold glyphCells
  split <;> rfl

theorem wf_writeRow : ∀ (units : List Nat) (row : List Cell) (col attr : Nat),
    wfAux false row = true → wfAux false (writeRow row col attr units).row = true := by
  intro units
  induction units with
  | nil =>
    intro row col attr h
    exact h
  | cons u rest ih =>
    intro row col attr h
    rw [writeRow]
    by_cases hfit : col + charWidth u ≤ row.length
    · rw [if_pos hfit]
      exact ih _ _ attr (wf_setRun row col _ h (glyphCells_wf u attr))
    · rw [if_neg hfit]
      by_cases hcol : col < row.length
      · rw [if_pos hcol]
        exact wf_setRun row col _ h rfl
      · rw [if_neg hcol]
        exact h

theorem blankRow_wf (w : Nat) : wfAux false (blankRow w) = true := by
  unfold blankRow
  induction w with
  | zero => rfl
  | succ w ih =>
    rw [List.replicate_succ, wfAux]
    exact ih

theorem reachable_rows_wf (b : Buffer) (hb : Reachable b) :
    ∀ r ∈ b.rows, rowWf r = true := by
  induction hb with
  | init w h =>
    intro r hr
    have he : r = blankRow w := by
      simp [Buffer.init] at hr
      exact hr.2
    rw [he]
    exact blankRow_wf w
  | step b i attr st hb ih =>
    intro r hr
    unfold Buffer.replace at hr
    cases hg : b.rows[i]? with
    | none =>
      rw [hg] at hr
      exact ih r hr
    | some r0 =>
      rw [hg] at hr
      simp only [] at hr
      rcases List.mem_or_eq_of_mem_set hr with h1 | h2
      · exact ih r h1
      · rw [h2]
        have hr0 : rowWf r0 = true := ih r0 (List.getElem?_mem hg)
        exact wf_writeRow _ r0 st.columnBegin attr hr0

theorem wfAux_index : ∀ (l : List Cell) (flag : Bool), wfAux flag l = true → ∀ i : Nat,
    ((∃ g a, l[i]? = some (Cell.wideHead g a)) → ∃ a2, l[i + 1]? = some (Cell.trailer a2)) ∧
    ((∃ a, l[i]? = some (Cell.trailer a)) →
      (flag = true ∧ i = 0) ∨ ∃ j g a2, i = j + 1 ∧ l[j]? = some (Cell.wideHead g a2)) := by
  intro l
  induction l with
  | nil =>
    intro flag _ i
    constructor
    · rintro ⟨g, a, he⟩
      simp at he
    · rintro ⟨a, he⟩
      simp at he
  | cons c t ih =>
    intro flag h i
    cases flag with
    | false =>
      cases c with
      | narrow g2 a2 =>
        rw [wfAux] at h
        cases i with
        | zero =>
          constructor
          · rintro ⟨g, a, he⟩
            simp at he
          · rintro ⟨a, he⟩
            simp at he
        | succ i =>
          constructor
          · rintro ⟨g, a, he⟩
            rw [List.getElem?_cons_succ] at he
            obtain ⟨a3, ht⟩ := (ih false h i).1 ⟨g, a, he⟩
            exact ⟨a3, by rw [List.getElem?_cons_succ]; exact ht⟩
          · rintro ⟨a, he⟩
            rw [List.getElem?_cons_succ] at he
            rcases (ih false h i).2 ⟨a, he⟩ with ⟨hf, _⟩ | ⟨j, g3, a3, hj, hwj⟩
            · exact absurd hf (by simp)
            · right
              exact ⟨j + 1, g3, a3, by omega, by rw [List.getElem?_cons_succ]; exact hwj⟩
      | wideHead g2 a2 =>
        rw [wfAux] at h
        obtain ⟨a3, t2, he2, _⟩ := wfAux_true_shape t h
        cases i with
        | zero =>
          constructor
          · intro _
            refine ⟨a3, ?_⟩
            rw [List.getElem?_cons_succ, he2]
            simp
          · rintro ⟨a, he⟩
            simp at he
        | succ i =>
          constructor
          · rintro ⟨g, a, he⟩
            rw [List.getElem?_cons_succ] at he
            obtain ⟨a4, ht⟩ := (ih true h i).1 ⟨g, a, he⟩
            exact ⟨a4, by rw [List.getElem?_cons_succ]; exact ht⟩
          · rintro ⟨a, he⟩
            rw [List.getElem?_cons_succ] at he
            rcases (ih true h i).2 ⟨a, he⟩ with ⟨_, hi⟩ | ⟨j, g3, a4, hj, hwj⟩
            · right
              refine ⟨0, g2, a2, by omega, ?_⟩
              simp
            · right
              exact ⟨j + 1, g3, a4, by omega, by rw [List.getElem?_cons_succ]; exact hwj⟩
      | trailer a2 =>
        rw [wfAux] at h
        simp at h
    | true =>
      cases c with
      | narrow g2 a2 =>
        rw [wfAux] at h
        simp at h
      | wideHead g2 a2 =>
        rw [wfAux] at h
        simp at h
      | trailer a2 =>
        rw [wfAux] at h
        cases i with
        | zero =>
          constructor
          · rintro ⟨g, a, he⟩
            simp at he
          · intro _
            left
            exact ⟨rfl, rfl⟩
        | succ i =>
          constructor
          · rintro ⟨g, a, he⟩
            rw [List.getElem?_cons_succ] at he
            obtain ⟨a4, ht⟩ := (ih false h i).1 ⟨g, a, he⟩
            exact ⟨a4, by rw [List.getElem?_cons_succ]; exact ht⟩
          · rintro ⟨a, he⟩
            rw [List.getElem?_cons_succ] at he
            rcases (ih false h i).2 ⟨a, he⟩ with ⟨hf, _⟩ | ⟨j, g3, a4, hj, hwj⟩
            · exact absurd hf (by simp)
            · right
              exact ⟨j + 1, g3, a4, by omega, by rw [List.getElem?_cons_succ]; exact hwj⟩

/-! ## Claim C5: the wide/trailer invariant on reachable buffers -/

/-- C5: in every reachable buffer state (fresh buffer followed by any
sequence of writes) and every row, a wide-head cell is immediately followed
by exactly one trailer cell, and a trailer cell never appears without a
wide-head cell immediately before it. -/
theorem wide_trailer_invariant (b : Buffer) (hb : Reachable b) (r : List Cell)
    (hr : r ∈ b.rows) (i : Nat) :
    ((∃ g a, r[i]? = some (Cell.wideHead g a)) →
      (∃ a2, r[i + 1]? = some (Cell.trailer a2)) ∧
        (∀ a3, r[i + 2]? ≠ some (Cell.trailer a3))) ∧
    ((∃ a, r[i]? = some (Cell.trailer a)) →
      ∃ j g a2, i = j + 1 ∧ r[j]? = some (Cell.wideHead g a2)) := by
  have hwf : wfAux false r = true := reachable_rows_wf b hb r hr
  have hidx := wfAux_index r false hwf
  constructor
  · rintro ⟨g, a, hw⟩
    obtain ⟨a2, ht⟩ := (hidx i).1 ⟨g, a, hw⟩
    refine ⟨⟨a2, ht⟩, ?_⟩
    intro a3 ht3
    rcases (hidx (i + 2)).2 ⟨a3, ht3⟩ with ⟨hf, _⟩ | ⟨j, g2, a4, hj, hwj⟩
    · exact absurd hf (by simp)
    · have hj2 : j = i + 1 := by omega
      rw [hj2, ht] at hwj
      simp at hwj
  · rintro ⟨a, hta⟩
    rcases (hidx i).2 ⟨a, hta⟩ with ⟨hf, _⟩ | h
    · exact absurd hf (by simp)
    · exact h

/-- C5 (witness): in the fixture row, the wide head at column 12 (`ネ`) is
followed by exactly one trailer, and column 12 itself is not an orphan
trailer. -/
theorem wide_trailer_invariant_witness :
    ((∃ g a, fixtureRow[12]? = some (Cell.wideHead g a)) →
      (∃ a2, fixtureRow[13]? = some (Cell.trailer a2)) ∧
        (∀ a3, fixtureRow[14]? ≠ some (Cell.trailer a3))) ∧
    ((∃ a, fixtureRow[12]? = some (Cell.trailer a)) →
      ∃ j g a2, 12 = j + 1 ∧ fixtureRow[j]? = some (Cell.wideHead g a2)) :=
  wide_trailer_invariant fixtureBuffer
    (Reachable.step (Buffer.init 24 1) 0 0 (RowWriteState.mk fixtureText 0 0)
      (Reachable.init 24 1))
    fixtureRow (by decide) 12

/-! ## Shape of the spans returned by the searcher -/

theorem unitsMatch_length : ∀ (q : List Nat) (us : List TextUnit),
    unitsMatch q us = true → q.length ≤ us.length := by
  intro q
  induction q with
  | nil =>
    intro us _
    simp
  | cons c q ih =>
    intro us h
    cases us with
    | nil => simp [unitsMatch] at h
    | cons u t =>
      rw [unitsMatch, Bool.and_eq_true] at h
      have := ih t h.2
      simp
      omega

theorem unitsMatch_take_map : ∀ (q : List Nat) (us : List TextUnit),
    unitsMatch q us = true → (us.take q.length).map TextUnit.g = q := by
  intro q
  induction q with
  | nil =>
    intro us _
    simp
  | cons c q ih =>
    intro us h
    cases us with
    | nil => simp [unitsMatch] at h
    | cons u t =>
      rw [unitsMatch, Bool.and_eq_true] at h
      obtain ⟨h1, h2⟩ := h
      have hg : c = u.g := by
        simpa using h1
      rw [List.length_cons, List.take_succ_cons, List.map_cons, ih t h2, hg]

theorem take_getLastD_getD : ∀ (l : List TextUnit) (n : Nat) (d1 d2 : TextUnit),
    n < l.length → (l.take (n + 1)).getLastD d1 = l.getD n d2 := by
  intro l
  induction l with
  | nil =>
    intro n d1 d2 h
    simp at h
  | cons c t ih =>
    intro n d1 d2 h
    cases n with
    | zero => simp
    | succ n =>
      rw [List.take_succ_cons, List.getLastD_cons, List.getD_cons_succ]
      apply ih
      simp at h
      omega

theorem searchAux_span_shape : ∀ (q : List Nat) (fuel : Nat), ∀ (units : List TextUnit) (sp : Span),
    q ≠ [] → sp ∈ searchAux q fuel units →
    ∃ u0 us pre post,
      units = pre ++ (u0 :: us) ++ post ∧
      (u0 :: us).map TextUnit.g = q ∧
      sp.start = Point.mk u0.x u0.y ∧
      sp.stop = Point.mk ((us.getLastD u0).x + (us.getLastD u0).w - 1) (us.getLastD u0).y := by
  intro q fuel
  induction fuel with
  | zero =>
    intro units sp _ hsp
    simp [searchAux] at hsp
  | succ fuel ih =>
    intro units sp hq hsp
    cases units with
    | nil => simp [searchAux] at hsp
    | cons u rest =>
      rw [searchAux] at hsp
      by_cases hm : unitsMatch q (u :: rest) = true
      · rw [if_pos hm] at hsp
        simp only [List.mem_cons] at hsp
        rcases hsp with hsp1 | hsp2
        · have hk : q.length - 1 < (u :: rest).length := by
            have hlen := unitsMatch_length q (u :: rest) hm
            have hpos : 1 ≤ q.length := by
              cases q with
              | nil => exact absurd rfl hq
              | cons c q2 => simp
            simp only [List.length_cons] at hlen ⊢
            omega
          have hlast : (rest.take (q.length - 1)).getLastD u =
              (u :: rest).getD (q.length - 1) u := by
            have h1 : (q.length - 1) + 1 = q.length ∨ q.length - 1 = 0 := by omega
            have hstep : ((u :: rest).take ((q.length - 1) + 1)).getLastD u =
                (u :: rest).getD (q.length - 1) u :=
              take_getLastD_getD (u :: rest) (q.length - 1) u u hk
            rw [List.take_succ_cons, List.getLastD_cons] at hstep
            exact hstep
          refine ⟨u, rest.take (q.length - 1), [], rest.drop (q.length - 1), ?_, ?_, ?_, ?_⟩
          · simp [List.take_append_drop]
          · have hq1 : 1 ≤ q.length := by
              cases q with
              | nil => exact absurd rfl hq
              | cons c q2 => simp
            have hqs : q.length = (q.length - 1) + 1 := by omega
            have htk : (u :: rest).take q.length = u :: rest.take (q.length - 1) := by
              conv_lhs => rw [hqs]
              rw [List.take_succ_cons]
            have hmap := unitsMatch_take_map q (u :: rest) hm
            rw [htk] at hmap
            exact hmap
          · rw [hsp1]
          · rw [hsp1, hlast]
        · obtain ⟨u0, us, pre, post, he, hmap, hs, hst⟩ :=
            ih (rest.drop (q.length - 1)) sp hq hsp2
          refine ⟨u0, us, u :: (rest.take (q.length - 1) ++ pre), post, ?_, hmap, hs, hst⟩
          have hsplit : rest = rest.take (q.length - 1) ++ rest.drop (q.length - 1) :=
            (List.take_append_drop _ _).symm
          conv_lhs => rw [hsplit, he]
          simp
      · rw [if_neg hm] at hsp
        obtain ⟨u0, us, pre, post, he, hmap, hs, hst⟩ := ih rest sp hq hsp
        refine ⟨u0, us, u :: pre, post, ?_, hmap, hs, hst⟩
        rw [List.cons_append, he]
        simp

/-! ## Claim C2 (amended): spans are inclusive of the last occupied column -/

/-- C2 (amended): every span returned by the searcher arises from a
contiguous segment of the buffer's units whose glyphs equal the decoded
query; its start is the origin coordinate of the first matched unit and its
stop is the LAST COLUMN OCCUPIED by the last matched unit
(origin.x + width - 1), i.e. the span is closed (inclusive) on the column
axis rather than half-open. -/
theorem span_stop_inclusive (b : Buffer) (query : List Nat) (sp : Span)
    (hsp : sp ∈ (searchText b query SearchFlag.none).2) :
    ∃ u0 us pre post,
      bufUnits b = pre ++ (u0 :: us) ++ post ∧
      (u0 :: us).map TextUnit.g = decodeUtf16 query ∧
      sp.start = Point.mk u0.x u0.y ∧
      sp.stop = Point.mk ((us.getLastD u0).x + (us.getLastD u0).w - 1) (us.getLastD u0).y := by
  unfold searchText at hsp
  by_cases hq : (decodeUtf16 query).isEmpty
  · simp [hq] at hsp
  · simp only [hq, Bool.false_eq_true, if_false, if_neg] at hsp
    have hqne : decodeUtf16 query ≠ [] := by
      intro he
      rw [he] at hq
      exact hq rfl
    exact searchAux_span_shape (decodeUtf16 query) (bufUnits b).length (bufUnits b) sp hqne hsp

/-- C2 (witness of the amended claim): the fixture's single-unit match `𝒷`
at column 5 decomposes as required. -/
theorem span_stop_inclusive_witness :
    ∃ u0 us pre post,
      bufUnits fixtureBuffer = pre ++ (u0 :: us) ++ post ∧
      (u0 :: us).map TextUnit.g = decodeUtf16 [0xD835, 0xDCB7] ∧
      (Span.mk (Point.mk 5 0) (Point.mk 5 0)).start = Point.mk u0.x u0.y ∧
      (Span.mk (Point.mk 5 0) (Point.mk 5 0)).stop =
        Point.mk ((us.getLastD u0).x + (us.getLastD u0).w - 1) (us.getLastD u0).y :=
  span_stop_inclusive fixtureBuffer [0xD835, 0xDCB7]
    (Span.mk (Point.mk 5 0) (Point.mk 5 0)) (by decide)

/-! ## Ordering of the logical-text units and of the returned spans -/

theorem annotRow_mem : ∀ (r : List Cell) (j y : Nat) (u : TextUnit), u ∈ annotRow r j y →
    u.y = y ∧ j ≤ u.x ∧ 1 ≤ u.w := by
  intro r
  induction r with
  | nil =>
    intro j y u h
    simp [annotRow] at h
  | cons c t ih =>
    intro j y u h
    cases c with
    | narrow g a =>
      rw [annotRow, List.mem_cons] at h
      rcases h with h | h
      · rw [h]
        exact ⟨rfl, Nat.le_refl j, by simp⟩
      · obtain ⟨hy, hx, hw⟩ := ih (j + 1) y u h
        exact ⟨hy, by omega, hw⟩
    | wideHead g a =>
      rw [annotRow, List.mem_cons] at h
      rcases h with h | h
      · rw [h]
        exact ⟨rfl, Nat.le_refl j, by simp⟩
      · obtain ⟨hy, hx, hw⟩ := ih (j + 1) y u h
        exact ⟨hy, by omega, hw⟩
    | trailer a =>
      rw [annotRow] at h
      obtain ⟨hy, hx, hw⟩ := ih (j + 1) y u h
      exact ⟨hy, by omega, hw⟩

theorem chainU_cons (u : TextUnit) (l : List TextUnit)
    (hc : chainU l) (hall : ∀ v ∈ l, uStep u v) : chainU (u :: l) := by
  cases l with
  | nil => trivial
  | cons v t =>
    exact ⟨hall v (List.mem_cons_self v t), hc⟩

theorem annotRow_chain : ∀ (r : List Cell) (flag : Bool) (j y : Nat), wfAux flag r = true →
    chainU (annotRow r j y) ∧
    ∀ u ∈ annotRow r j y, (if flag then j + 1 else j) ≤ u.x := by
  intro r
  induction r with
  | nil =>
    intro flag j y _
    constructor
    · trivial
    · intro u h
      simp [annotRow] at h
  | cons c t ih =>
    intro flag j y h
    cases flag with
    | false =>
      cases c with
      | narrow g a =>
        rw [wfAux] at h
        obtain ⟨hch, hbd⟩ := ih false (j + 1) y h
        rw [annotRow]
        constructor
        · apply chainU_cons _ _ hch
          intro v hv
          right
          refine ⟨(annotRow_mem t (j + 1) y v hv).1.symm ▸ rfl, ?_⟩
          have := hbd v hv
          simp at this
          simp
          omega
        · intro u hu
          rw [List.mem_cons] at hu
          rcases hu with hu | hu
          · rw [hu]
            simp
          · have := hbd u hu
            simp at this
            simp
            omega
      | wideHead g a =>
        rw [wfAux] at h
        obtain ⟨hch, hbd⟩ := ih true (j + 1) y h
        rw [annotRow]
        constructor
        · apply chainU_cons _ _ hch
          intro v hv
          right
          refine ⟨(annotRow_mem t (j + 1) y v hv).1.symm ▸ rfl, ?_⟩
          have := hbd v hv
          simp at this
          simp
          omega
        · intro u hu
          rw [List.mem_cons] at hu
          rcases hu with hu | hu
          · rw [hu]
            simp
          · have := hbd u hu
            simp at this
            simp
            omega
      | trailer a =>
        rw [wfAux] at h
        simp at h
    | true =>
      cases c with
      | narrow g a =>
        rw [wfAux] at h
        simp at h
      | wideHead g a =>
        rw [wfAux] at h
        simp at h
      | trailer a =>
        rw [wfAux] at h
        obtain ⟨hch, hbd⟩ := ih false (j + 1) y h
        rw [annotRow]
        constructor
        · exact hch
        · intro u hu
          have := hbd u hu
          simp at this
          simp
          omega

theorem rowsUnits_mem : ∀ (rs : List (List Cell)) (y0 : Nat) (u : TextUnit),
    u ∈ rowsUnits rs y0 → y0 ≤ u.y ∧ 1 ≤ u.w := by
  intro rs
  induction rs with
  | nil =>
    intro y0 u h
    simp [rowsUnits] at h
  | cons r rs ih =>
    intro y0 u h
    rw [rowsUnits, List.mem_append] at h
    rcases h with h | h
    · obtain ⟨hy, _, hw⟩ := annotRow_mem r 0 y0 u h
      exact ⟨by omega, hw⟩
    · obtain ⟨hy, hw⟩ := ih (y0 + 1) u h
      exact ⟨by omega, hw⟩

theorem chainU_append : ∀ (a b : List TextUnit), chainU a → chainU b →
    (∀ u ∈ a, ∀ v ∈ b, uStep u v) → chainU (a ++ b) := by
  intro a
  induction a with
  | nil =>
    intro b _ hb _
    exact hb
  | cons u t ih =>
    intro b ha hb hab
    cases t with
    | nil =>
      apply chainU_cons _ _ hb
      intro v hv
      exact hab u (List.mem_cons_self u []) v hv
    | cons v t2 =>
      obtain ⟨huv, hvt⟩ := ha
      refine ⟨huv, ?_⟩
      exact ih b hvt hb (fun w hw v2 hv2 => hab w (List.mem_cons_of_mem u hw) v2 hv2)

theorem rowsUnits_chain : ∀ (rs : List (List Cell)) (y0 : Nat),
    (∀ r ∈ rs, rowWf r = true) → chainU (rowsUnits rs y0) := by
  intro rs
  induction rs with
  | nil =>
    intro y0 _
    trivial
  | cons r rs ih =>
    intro y0 hwf
    rw [rowsUnits]
    apply chainU_append
    · exact (annotRow_chain r false 0 y0 (hwf r (List.mem_cons_self r rs))).1
    · exact ih (y0 + 1) (fun r2 hr2 => hwf r2 (List.mem_cons_of_mem r hr2))
    · intro u hu v hv
      left
      have hy1 := (annotRow_mem r 0 y0 u hu).1
      have hy2 := (rowsUnits_mem rs (y0 + 1) v hv).1
      omega

theorem chainU_tail (u : TextUnit) (l : List TextUnit) (h : chainU (u :: l)) : chainU l := by
  cases l with
  | nil => trivial
  | cons v t => exact h.2

theorem chainU_drop : ∀ (l : List TextUnit) (n : Nat), chainU l → chainU (l.drop n) := by
  intro l
  induction l with
  | nil =>
    intro n _
    rw [List.drop_nil]
    trivial
  | cons u t ih =>
    intro n h
    cases n with
    | zero => exact h
    | succ n =>
      rw [List.drop_succ_cons]
      exact ih n (chainU_tail u t h)

theorem uStep_trans (u v w2 : TextUnit) (h1 : uStep u v) (h2 : uStep v w2) : uStep u w2 := by
  unfold uStep at *
  omega

theorem chainU_head_all : ∀ (l : List TextUnit) (u : TextUnit), chainU (u :: l) →
    ∀ v ∈ l, uStep u v := by
  intro l
  induction l with
  | nil =>
    intro u _ v hv
    simp at hv
  | cons v t ih =>
    intro u h w2 hw
    obtain ⟨huv, hvt⟩ := h
    rw [List.mem_cons] at hw
    rcases hw with hw | hw
    · rw [hw]
      exact huv
    · exact uStep_trans u v w2 huv (ih v hvt w2 hw)

theorem getD_mem (l : List TextUnit) (n : Nat) (d : TextUnit) (h : n < l.length) :
    l.getD n d ∈ l := by
  rw [List.getD_eq_getElem?_getD, List.getElem?_eq_getElem h]
  exact List.getElem_mem h

theorem searchAux_ordered : ∀ (q : List Nat) (fuel : Nat), ∀ (units : List TextUnit),
    chainU units → (∀ u ∈ units, 1 ≤ u.w) →
    List.Pairwise spanBefore (searchAux q fuel units) ∧
    (∀ sp ∈ searchAux q fuel units, ∃ u, u ∈ units ∧ sp.start = Point.mk u.x u.y) := by
  intro q fuel
  induction fuel with
  | zero =>
    intro units _ _
    constructor
    · exact List.Pairwise.nil
    · intro sp hsp
      simp [searchAux] at hsp
  | succ fuel ih =>
    intro units hchain hw
    cases units with
    | nil =>
      constructor
      · exact List.Pairwise.nil
      · intro sp hsp
        simp [searchAux] at hsp
    | cons u rest =>
      rw [searchAux]
      by_cases hm : unitsMatch q (u :: rest) = true
      · rw [if_pos hm]
        have hklt : q.length - 1 < (u :: rest).length := by
          have := unitsMatch_length q (u :: rest) hm
          simp only [List.length_cons] at this ⊢
          omega
        have hgetd : (u :: rest).getD (q.length - 1) u = (u :: rest)[q.length - 1] := by
          rw [List.getD_eq_getElem?_getD, List.getElem?_eq_getElem hklt]
          rfl
        have hdropcons : (u :: rest).drop (q.length - 1) =
            (u :: rest).getD (q.length - 1) u :: rest.drop (q.length - 1) := by
          rw [hgetd]
          rw [List.drop_eq_getElem_cons hklt]
          rw [List.drop_succ_cons]
        have hchaind : chainU ((u :: rest).getD (q.length - 1) u :: rest.drop (q.length - 1)) := by
          rw [← hdropcons]
          exact chainU_drop (u :: rest) (q.length - 1) hchain
        have hall : ∀ v ∈ rest.drop (q.length - 1),
            uStep ((u :: rest).getD (q.length - 1) u) v :=
          chainU_head_all _ _ hchaind
        have hlastmem : (u :: rest).getD (q.length - 1) u ∈ u :: rest :=
          getD_mem _ _ _ hklt
        have hlastw : 1 ≤ ((u :: rest).getD (q.length - 1) u).w := hw _ hlastmem
        have hsub : ∀ v ∈ rest.drop (q.length - 1), v ∈ u :: rest :=
          fun v hv => List.mem_cons_of_mem u (List.drop_subset _ _ hv)
        obtain ⟨ihpw, ihstart⟩ := ih (rest.drop (q.length - 1))
          (chainU_drop rest (q.length - 1) (chainU_tail u rest hchain))
          (fun v hv => hw v (hsub v hv))
        constructor
        · rw [List.pairwise_cons]
          constructor
          · intro sp' hsp'
            obtain ⟨v, hv, hstart⟩ := ihstart sp' hsp'
            have hstep := hall v hv
            unfold spanBefore ptLt
            rw [hstart]
            unfold uStep at hstep
            simp only []
            omega
          · exact ihpw
        · intro sp hsp
          simp only [List.mem_cons] at hsp
          rcases hsp with hsp1 | hsp2
          · refine ⟨u, List.mem_cons_self u rest, ?_⟩
            rw [hsp1]
          · obtain ⟨v, hv, hstart⟩ := ihstart sp hsp2
            exact ⟨v, hsub v hv, hstart⟩
      · rw [if_neg hm]
        obtain ⟨ihpw, ihstart⟩ := ih rest (chainU_tail u rest hchain)
          (fun v hv => hw v (List.mem_cons_of_mem u hv))
        constructor
        · exact ihpw
        · intro sp hsp
          obtain ⟨v, hv, hstart⟩ := ihstart sp hsp
          exact ⟨v, List.mem_cons_of_mem u hv, hstart⟩

theorem covers_before_absurd (m1 m2 : Span) (p : Point) (hb : spanBefore m1 m2)
    (h1 : spanCovers m1 p) (h2 : spanCovers m2 p) : False := by
  unfold spanBefore ptLt at hb
  unfold spanCovers ptLe at h1 h2
  omega

theorem searchText_pairwise (b : Buffer) (query : List Nat) (hb : Reachable b) :
    List.Pairwise spanBefore (searchText b query SearchFlag.none).2 := by
  unfold searchText
  by_cases hq : (decodeUtf16 query).isEmpty
  · simp [hq]
  · simp only [hq, Bool.false_eq_true, if_false, if_neg]
    exact (searchAux_ordered (decodeUtf16 query) (bufUnits b).length (bufUnits b)
      (rowsUnits_chain b.rows 0 (reachable_rows_wf b hb))
      (fun u hu => (rowsUnits_mem b.rows 0 u hu).2)).1

/-! ## Claim C6: returned matches never overlap -/

/-- C6: for a reachable buffer and any query, no two distinct returned
match spans cover a common coordinate -- in particular no two spans share a
column on the same row. -/
theorem search_matches_disjoint (b : Buffer) (query : List Nat) (hb : Reachable b)
    (ms : List Span) (hms : (searchText b query SearchFlag.none).2 = ms)
    (i j : Nat) (hi : i < ms.length) (hj : j < ms.length) (hne : i ≠ j) (p : Point) :
    ¬(spanCovers (ms.get ⟨i, hi⟩) p ∧ spanCovers (ms.get ⟨j, hj⟩) p) := by
  have hpw : List.Pairwise spanBefore ms := by
    rw [← hms]
    exact searchText_pairwise b query hb
  rintro ⟨h1, h2⟩
  rcases Nat.lt_or_ge i j with hij | hge
  · have hbef := (List.pairwise_iff_get.mp hpw) ⟨i, hi⟩ ⟨j, hj⟩ (Fin.mk_lt_mk.mpr hij)
    exact covers_before_absurd _ _ p hbef h1 h2
  · have hij : j < i := by omega
    have hbef := (List.pairwise_iff_get.mp hpw) ⟨j, hj⟩ ⟨i, hi⟩ (Fin.mk_lt_mk.mpr hij)
    exact covers_before_absurd _ _ p hbef h2 h1

/-- C6 (witness): the fixture's two `abc` matches do not both cover column
1 of row 0. -/
theorem search_matches_disjoint_witness :
    ¬(spanCovers ((searchText fixtureBuffer [0x61, 0x62, 0x63] SearchFlag.none).2.get
          ⟨0, by decide⟩) (Point.mk 1 0) ∧
      spanCovers ((searchText fixtureBuffer [0x61, 0x62, 0x63] SearchFlag.none).2.get
          ⟨1, by decide⟩) (Point.mk 1 0)) :=
  search_matches_disjoint fixtureBuffer [0x61, 0x62, 0x63]
    (Reachable.step (Buffer.init 24 1) 0 0 (RowWriteState.mk fixtureText 0 0)
      (Reachable.init 24 1))
    (searchText fixtureBuffer [0x61, 0x62, 0x63] SearchFlag.none).2 rfl
    0 1 (by decide) (by decide) (by decide) (Point.mk 1 0)
